/-
  Verification of `sarcoma-histo-fed` (custom/preprocess.py, custom/slide_aucroc.py).

  This file gives a shallow embedding of the data model and the operations of the
  tiling / stain-normalization pipeline, translated from the Python source, and
  proves or refutes the frozen natural-language claims about it.

  Conventions of the embedding:
  * Python floats appearing as configuration values and pixel statistics are
    modelled as rationals (`ℚ`); quantities that genuinely involve square roots
    (Euclidean row norms in the stain-dictionary fit) live in `ℝ`.
  * Machine pixel values (uint8 luminance) are modelled as `ℕ`.
  * Stateful code (in-place numpy mutation, filesystem writes, queue traffic) is
    modelled by explicit state passing: a function that mutates its argument is
    embedded as a function returning the post-state of that argument, and the
    tiler's interaction with the job queue / result channel is embedded as the
    list of events it emits.
-/
import Mathlib

namespace SarcomaHistoFed

/-! ## Python rounding and truncation helpers -/

/-- Python 3 `round` on a (non-negative, exactly represented) value: round half
to even, as used in `calc_augmentation_factor` (preprocess.py line 808). -/
def pyRound (q : ℚ) : ℤ :=
  if q - ⌊q⌋ < 1/2 then ⌊q⌋
  else if 1/2 < q - ⌊q⌋ then ⌊q⌋ + 1
  else if ⌊q⌋ % 2 = 0 then ⌊q⌋ else ⌊q⌋ + 1

/-- Python `int(x)` applied to a non-negative float product `k * v`
(preprocess.py line 614): truncation, which for non-negative values is the
floor, clamped to `ℕ`. -/
def pyIntOfMul (k : ℕ) (v : ℚ) : ℕ := (⌊(k : ℚ) * v⌋).toNat

/-! ## `calc_augmentation_factor` (preprocess.py lines 798-811) -/

/-- The augmentation factor assigned to one class: `8` when the class's tile
count equals the smallest count, otherwise `round(smallest * 8 / count)`
(preprocess.py lines 803-809). -/
def augFactor (smallest_num_tiles : ℕ) (value : ℕ) : ℤ :=
  if value = smallest_num_tiles then 8
  else pyRound ((smallest_num_tiles : ℚ) * 8 / (value : ℚ))

/-- `calc_augmentation_factor`: maps each `(class, tile_count)` entry to
`(class, (tile_count, factor))`, mirroring the dict comprehension loop of
preprocess.py lines 798-811. -/
def calc_augmentation_factor (counts : List (ℕ × ℕ)) (smallest_num_tiles : ℕ) :
    List (ℕ × ℕ × ℤ) :=
  counts.map (fun p => (p.1, p.2, augFactor smallest_num_tiles p.2))

/-! ## `get_train_valid_split` (preprocess.py lines 602-620)

The Python function groups the slide files by label, shuffles each group and
slices it.  The grouping and the shuffle permutation are modelled by handing
the function the per-label (already shuffled) file lists; the theorems
quantify over all such lists, which covers every shuffle outcome. -/

/-- Python slice `l[:n]` for an integer `n` (possibly negative):
non-negative `n` keeps the first `n` elements, negative `n` drops `-n`
elements from the end. -/
def pySliceTo (l : List α) (n : ℤ) : List α :=
  if 0 ≤ n then l.take n.toNat else l.take (l.length - (-n).toNat)

/-- Python slice `l[-m:]` for a natural `m` (preprocess.py line 618):
for `m = 0` this is `l[0:] = l` (the whole list!), otherwise the last
`min m (length l)` elements. -/
def pyTailSlice (l : List α) (m : ℕ) : List α :=
  if m = 0 then l else l.drop (l.length - m)

/-- The body of the per-label loop of `get_train_valid_split`
(preprocess.py lines 613-618): `num_val = int(len * validation_split)`,
`num_train = len - num_val`, train gets `files[:num_train]`, validation gets
`files[-num_val:]`. -/
def splitLabel (files : List α) (validation_split : ℚ) : List α × List α :=
  let num_val : ℕ := pyIntOfMul files.length validation_split
  let num_train : ℤ := (files.length : ℤ) - (num_val : ℤ)
  (pySliceTo files num_train, pyTailSlice files num_val)

/-- `get_train_valid_split`, modelled on the per-label grouped (and shuffled)
file lists: concatenates each label's train part and validation part
(preprocess.py lines 609-620). -/
def get_train_valid_split (groups : List (List α)) (validation_split : ℚ) :
    List α × List α :=
  (groups.flatMap (fun g => (splitLabel g validation_split).1),
   groups.flatMap (fun g => (splitLabel g validation_split).2))

/-! ## In-place zero replacement in `_stain_dict_Vahadane`
(preprocess.py lines 85-86) and `_write_normalized_image` (lines 127-128)

`imgOD = img` aliases the caller's array and `imgOD[(img == 0)] = 1` writes
through the alias; the embedding returns the post-state of the argument. -/

/-- Post-state of the pixel array passed to `_stain_dict_Vahadane` after
lines 85-86 (`imgOD = img; imgOD[(img == 0)] = 1`): every zero entry becomes
`1`, all other entries are unchanged.  The subsequent rebinding
`imgOD = -log(imgOD/255)` allocates a fresh array, so this is the final state
of the caller's array. -/
def stainDictArgAfter (img : List ℕ) : List ℕ :=
  img.map (fun x => if x = 0 then 1 else x)

/-! ## The tile filter inside `TileWorker.run` (preprocess.py lines 182-209)

The decoded tile is modelled by its grayscale (luminance) pixel list
(`gray = tile.convert("L")`, uint8 values). -/

/-- `avgBkg` (preprocess.py lines 183-185): the tile is mapped through
`point(lambda x: 0 if x < 220 else 1)` and averaged, so this is the fraction
of luminance pixels **at or above** 220. -/
def avgBkg (gray : List ℕ) : ℚ :=
  ((gray.filter (fun x => 220 ≤ x)).length : ℚ) / (gray.length : ℚ)

/-- `count_unique.size` (preprocess.py line 192): the number of distinct
luminance values in the tile, via `np.unique`. -/
def uniqueCount (gray : List ℕ) : ℕ := gray.dedup.length

/-- The acceptance test of `TileWorker.run` (preprocess.py lines 197-202):
`count_unique.size > 10 and avgBkg <= Bkg/100` and then
`PercentMasked >= ROIpc/100`. -/
def tileAccept (gray : List ℕ) (Bkg ROIpc PercentMasked : ℚ) : Prop :=
  10 < uniqueCount gray ∧ avgBkg gray ≤ Bkg / 100 ∧ ROIpc / 100 ≤ PercentMasked

instance tileAcceptDec (gray : List ℕ) (Bkg ROIpc PercentMasked : ℚ) :
    Decidable (tileAccept gray Bkg ROIpc PercentMasked) := by
  unfold tileAccept
  infer_instance

/-- The worker's observable output for one job (preprocess.py lines 197-212):
the accepted tile is normalized, written to `outfile` and `outfile` is pushed
to the result channel; a rejected tile produces nothing (and no error). -/
def tileWorkerOut (gray : List ℕ) (Bkg ROIpc PercentMasked : ℚ)
    (outfile : String) : List String :=
  if tileAccept gray Bkg ROIpc PercentMasked then [outfile] else []

/-- The fraction of luminance pixels strictly below 220.  This definition
follows the words of the spec/claim ("the fraction of the tile's luminance
pixels below the brightness threshold 220/255"), for comparison with the
code's `avgBkg`; it is not part of the source embedding. -/
def specFgFrac (gray : List ℕ) : ℚ :=
  ((gray.filter (fun x => x < 220)).length : ℚ) / (gray.length : ℚ)

/-! ## `DeepZoomImageTiler._write_tiles` (preprocess.py lines 305-422)

Tile output names are `"%s_%d_%d.%s" % (basename, col, row, format)`
(line 396); for the fixed basename and format of one run this formatting is
injective in `(col, row)` (`col` and `row` print as digit strings, so the
name parses back uniquely), and the pyramid level is *not* part of the name.
The embedding therefore identifies an output path with its `(col, row)`
address.  The tiler's queue traffic is modelled as the list of events it
emits, in program order. -/

/-- One observable action of `_write_tiles` for an enumerated address:
either a `TileJob` put on the worker queue (line 407) or the path reported
directly on the result channel (line 421). -/
inductive TileEvent where
  | enq (addr : ℕ × ℕ)
  | rep (addr : ℕ × ℕ)
deriving DecidableEq, Repr

/-- Substring containment, modelling Python's `in` on strings
(preprocess.py lines 319, 324). -/
def containsSub (s pat : String) : Bool := decide (pat.toList <:+: s.toList)

/-- Objective-power determination (preprocess.py lines 313-332): the slide
metadata value when present (and parseable), else 1.0 when the extension
contains `jpg` or `dcm`, else 20.0 when it contains `tiff` or `btf`, else
none (the function returns, producing no jobs). -/
def inferObjective (meta : Option ℚ) (ext : String) : Option ℚ :=
  match meta with
  | some o => some o
  | none =>
    if containsSub ext "jpg" || containsSub ext "dcm" then some 1
    else if containsSub ext "tiff" || containsSub ext "btf" then some 20
    else none

/-- `ThisMag` for a deep-zoom level (preprocess.py line 362):
`Available[0] / 2 ** (level_count - (level + 1))`. -/
def thisMag (a0 : ℚ) (level_count level : ℕ) : ℚ :=
  a0 / 2 ^ (level_count - (level + 1))

/-- Whether a level survives the magnification filter (preprocess.py lines
363-365): skipped exactly when `Mag > 0` and `ThisMag != Mag`. -/
def levelSelected (Mag a0 : ℚ) (level_count level : ℕ) : Bool :=
  !(decide (0 < Mag) && decide (thisMag a0 level_count level ≠ Mag))

/-- The deep-zoom levels `_write_tiles` actually tiles, in iteration order
(`range(level_count - 1, -1, -1)`, filtered by the magnification test). -/
def selectedLevels (Mag a0 : ℚ) (level_count : ℕ) : List ℕ :=
  ((List.range level_count).reverse).filter (levelSelected Mag a0 level_count)

/-- Enumeration of one level's tile grid (preprocess.py lines 375-422):
for each `(col, row)`, report the path when a file already exists at it
(`os.path.exists`), otherwise enqueue a `TileJob` for it. -/
def enumLevel (grid : ℕ × ℕ) (onDisk : ℕ × ℕ → Bool) : List TileEvent :=
  (List.range grid.2).flatMap fun row =>
    (List.range grid.1).flatMap fun col =>
      if onDisk (col, row) then [TileEvent.rep (col, row)]
      else [TileEvent.enq (col, row)]

/-- `_write_tiles` (preprocess.py lines 305-422): objective inference, the
`Available` magnification list over the slide's native level downsamples
(only `Available[0]` feeds the loop), the empty-`Factors` early return
(line 338), then the level loop. -/
def write_tiles (meta : Option ℚ) (ext : String) (factors : List ℚ)
    (level_count : ℕ) (grids : ℕ → ℕ × ℕ) (Mag : ℚ)
    (onDisk : ℕ × ℕ → Bool) : List TileEvent :=
  match inferObjective meta ext with
  | none => []
  | some obj =>
    match factors with
    | [] => []
    | f0 :: _ =>
      (selectedLevels Mag (obj / f0) level_count).flatMap
        (fun level => enumLevel (grids level) onDisk)

/-- Number of `TileJob`s enqueued for one output path. -/
def countEnq (addr : ℕ × ℕ) (events : List TileEvent) : ℕ :=
  (events.filter (fun e => e = TileEvent.enq addr)).length

/-- Number of times one output path is reported directly on the result
channel (the already-exists branch, preprocess.py line 421). -/
def countRep (addr : ℕ × ℕ) (events : List TileEvent) : ℕ :=
  (events.filter (fun e => e = TileEvent.rep addr)).length

/-! ## `augment_tiles_based_on_factor` (preprocess.py lines 817-846)

A tile file name is split by the code at its last dot
(`idx = file_name.rfind(".")`); the embedding keeps the two halves as a pair
`(stem, ext)`, with `ext` the substring from the last dot on (so `ext`
contains no further dot and the pairing is a faithful rendering of the
string).  The filesystem is modelled as the list of existing file names,
threaded through the fold. -/

/-- A tile file name, split at its last dot: `stem ++ ext` with `ext`
beginning with the dot. -/
structure TName where
  stem : String
  ext : String
deriving DecidableEq, Repr

/-- The derived file name for augmentation step `i` (preprocess.py lines
826-834): rotation `(90*i) % 360` and a `_mirror` marker when `i > 3`,
inserted before the extension. -/
def augName (t : TName) (i : ℕ) : TName :=
  { stem := t.stem ++ "_" ++ toString ((90 * i) % 360)
      ++ (if 3 < i then "_mirror" else ""),
    ext := t.ext }

/-- The derived names produced for one original tile, in loop order
`i in range(1, factor)` (preprocess.py line 825). -/
def derivedNames (t : TName) (factor : ℕ) : List TName :=
  (List.range' 1 (factor - 1)).map (augName t)

/-- The filesystem effect of one derived name (preprocess.py lines 837-840):
the file is written only when absent (`if not os.path.exists(...)`). -/
def addIfNew (fs : List TName) (a : TName) : List TName :=
  if a ∈ fs then fs else fs ++ [a]

/-- `augment_tiles_based_on_factor` for one slide's tile list
(preprocess.py lines 819-845).  The double loop visits the derived names of
the files currently in `tiles` in order; each name is written to the
filesystem only if absent, and appended to `new_list` unconditionally
(line 843); finally `tiles_list.extend(new_list)` (line 845).  The
filesystem thread and the `new_list` thread do not interact, so the
interleaved loop is rendered as the same name sequence folded into each.
Returns the new filesystem and the new tile list. -/
def augment_tiles_based_on_factor (fs : List TName) (tiles : List TName)
    (factor : ℕ) : List TName × List TName :=
  let newList := tiles.flatMap (fun t => derivedNames t factor)
  (newList.foldl addIfNew fs, tiles ++ newList)

/-! ## `_stain_dict_Vahadane` post-processing (preprocess.py lines 102-108)

The dictionary-learning call (`spams.trainDL`) is an external library and is
treated as a black box; the embedding takes its (already transposed) 2×3
output matrix as input.  Entries are modelled as rationals (every float is a
rational); the Euclidean row norms introduce square roots, so the returned
matrix lives in `ℝ`. -/

/-- The 2×3 matrix `WisHisHisv` produced by `spams.trainDL(...).T`. -/
abbrev StainMat := Fin 2 → Fin 3 → ℚ

/-- The row swap (preprocess.py lines 102-103): swap the two rows when
`W[0,0] < W[1,0]`. -/
def sdSwap (W : StainMat) : StainMat :=
  if W 0 0 < W 1 0 then ![W 1, W 0] else W

/-- Squared Euclidean norm of a row. -/
def rowNormSq (v : Fin 3 → ℚ) : ℚ := v 0 ^ 2 + v 1 ^ 2 + v 2 ^ 2

/-- Whether a row is the zero vector, as tested by
`np.array_equal(WisHisHisv[1], [0, 0, 0])` (line 106). -/
def rowIsZero (v : Fin 3 → ℚ) : Prop :=
  v 0 = 0 ∧ v 1 = 0 ∧ v 2 = 0

instance rowIsZeroDec (v : Fin 3 → ℚ) : Decidable (rowIsZero v) := by
  unfold rowIsZero
  infer_instance

/-- The value returned by `_stain_dict_Vahadane` (lines 102-108), as a
function of the `trainDL` output: row swap, then — only when row 1 of the
swapped matrix is not the zero vector — division of **each** row by its own
Euclidean norm (`np.linalg.norm(..., axis=1)`). -/
noncomputable def stain_dict_Vahadane (W : StainMat) (i : Fin 2) (j : Fin 3) :
    ℝ :=
  if rowIsZero (sdSwap W 1) then ((sdSwap W i j : ℚ) : ℝ)
  else ((sdSwap W i j : ℚ) : ℝ)
    / Real.sqrt ((rowNormSq (sdSwap W i) : ℚ) : ℝ)

/-! ## `slide_aucroc.py`: `aggregate_to_slides` and `compute_roc_auc`

Prediction and label vectors are length-`n` rational vectors.  The pandas
`groupby("slides")` sorts the distinct keys; `np.vstack(x).mean(axis=0)` is
the componentwise mean.  `sklearn.roc_auc_score` is external and is passed
in as an abstract scorer. -/

/-- A per-tile prediction or label vector. -/
abbrev Vec (n : ℕ) := Fin n → ℚ

/-- Componentwise mean of a list of vectors (`np.vstack(x).mean(axis=0)`,
slide_aucroc.py lines 18-19). -/
def vmean {n : ℕ} (l : List (Vec n)) : Vec n :=
  fun j => (l.map (fun v => v j)).sum / (l.length : ℚ)

/-- The prediction vectors of the rows sharing slide-id `s`. -/
def predsOf {n : ℕ} (s : String) (rows : List (String × Vec n × Vec n)) :
    List (Vec n) :=
  (rows.filter (fun r => r.1 = s)).map (fun r => r.2.1)

/-- The label vectors of the rows sharing slide-id `s`. -/
def actualsOf {n : ℕ} (s : String) (rows : List (String × Vec n × Vec n)) :
    List (Vec n) :=
  (rows.filter (fun r => r.1 = s)).map (fun r => r.2.2)

/-- The distinct slide-ids, in the sorted order pandas `groupby` uses
(slide_aucroc.py line 16). -/
def slideKeys {n : ℕ} (rows : List (String × Vec n × Vec n)) : List String :=
  ((rows.map (fun r => r.1)).dedup).insertionSort (fun a b => a ≤ b)

/-- `aggregate_to_slides` (slide_aucroc.py lines 10-26): one output row per
distinct slide-id, holding the componentwise means of that slide's
prediction vectors and label vectors. -/
def aggregate_to_slides {n : ℕ} (rows : List (String × Vec n × Vec n)) :
    List (String × Vec n × Vec n) :=
  (slideKeys rows).map (fun s => (s, vmean (predsOf s rows), vmean (actualsOf s rows)))

/-- `compute_roc_auc` (slide_aucroc.py lines 29-40), with the dataset/model
pairing already materialized as `(slide-id, prediction, label)` triples and
`sklearn.roc_auc_score(actual, pred, multi_class="ovr")` abstracted as the
scorer `score actuals preds`: aggregates to slide level, then scores the
aggregated actuals against the aggregated predictions. -/
def compute_roc_auc {n : ℕ} (score : List (Vec n) → List (Vec n) → ℚ)
    (rows : List (String × Vec n × Vec n)) : ℚ :=
  let agg := aggregate_to_slides rows
  score (agg.map (fun r => r.2.2)) (agg.map (fun r => r.2.1))

/-! ## Helper lemmas -/

theorem pyRound_pos {q : ℚ} (h : 1/2 < q) : 1 ≤ pyRound q := by
  have hq : (0 : ℚ) ≤ q := le_trans (by norm_num) h.le
  have hf : 0 ≤ ⌊q⌋ := Int.floor_nonneg.mpr hq
  unfold pyRound
  rcases eq_or_lt_of_le hf with h0 | h1
  · have hr2 : 1/2 < q - (⌊q⌋ : ℚ) := by
      rw [← h0]
      push_cast
      linarith
    have hr : ¬ (q - (⌊q⌋ : ℚ) < 1/2) := by linarith
    simp only [hr, if_false, if_pos hr2]
    omega
  · split_ifs <;> omega

theorem augFactor_ge_one {m v : ℕ} (hm : 1 ≤ m) (hmv : m ≤ v)
    (hv : v < 16 * m) : 1 ≤ augFactor m v := by
  by_cases h : v = m
  · simp [augFactor, h]
  · have hv1 : 1 ≤ v := le_trans hm hmv
    have hvq : (0 : ℚ) < (v : ℚ) := by positivity
    rw [augFactor, if_neg h]
    apply pyRound_pos
    rw [lt_div_iff₀ hvq]
    have : (v : ℚ) < 16 * (m : ℚ) := by exact_mod_cast hv
    linarith

theorem length_le_one_of_nodup_const {α : Type} {l : List α} {c : α}
    (hnd : l.Nodup) (h : ∀ x ∈ l, x = c) : l.length ≤ 1 := by
  match l with
  | [] => simp
  | [x] => simp
  | x :: y :: t =>
    have hx : x = c := h x (by simp)
    have hy : y = c := h y (by simp)
    rw [List.nodup_cons] at hnd
    exact absurd (by rw [hx, ← hy]; exact List.mem_cons_self y t) hnd.1

theorem uniqueCount_replicate_le_one (n c : ℕ) :
    uniqueCount (List.replicate n c) ≤ 1 := by
  unfold uniqueCount
  refine length_le_one_of_nodup_const (c := c) (List.nodup_dedup _) ?_
  intro x hx
  exact List.eq_of_mem_replicate (List.dedup_subset _ hx)

theorem mem_foldl_addIfNew_left {a : TName} :
    ∀ (l : List TName) {fs : List TName}, a ∈ fs → a ∈ l.foldl addIfNew fs := by
  intro l
  induction l with
  | nil => intro fs h; simpa using h
  | cons b t ih =>
    intro fs h
    rw [List.foldl_cons]
    apply ih
    unfold addIfNew
    split_ifs
    · exact h
    · exact List.mem_append_left _ h

theorem mem_foldl_addIfNew_right {a : TName} :
    ∀ (l : List TName) (fs : List TName), a ∈ l → a ∈ l.foldl addIfNew fs := by
  intro l
  induction l with
  | nil => intro fs h; simp at h
  | cons b t ih =>
    intro fs h
    rw [List.foldl_cons]
    rcases List.mem_cons.mp h with h | h
    · subst h
      apply mem_foldl_addIfNew_left
      unfold addIfNew
      split_ifs with hb
      · exact hb
      · exact List.mem_append_right _ (List.mem_singleton_self a)
    · exact ih _ h

theorem foldl_addIfNew_eq_self :
    ∀ {l fs : List TName}, (∀ a ∈ l, a ∈ fs) → l.foldl addIfNew fs = fs := by
  intro l
  induction l with
  | nil => intro fs _; rfl
  | cons b t ih =>
    intro fs h
    rw [List.foldl_cons]
    have hb : addIfNew fs b = fs := by
      unfold addIfNew
      rw [if_pos (h b (List.mem_cons_self b t))]
    rw [hb]
    exact ih (fun a ha => h a (List.mem_cons_of_mem b ha))

theorem filter_flatMap_length {α β : Type} (l : List α) (f : α → List β)
    (p : β → Bool) :
    ((l.flatMap f).filter p).length
      = (l.map (fun x => ((f x).filter p).length)).sum := by
  induction l with
  | nil => simp
  | cons x t ih => simp [List.filter_append, ih]

theorem sum_map_ite_eq_length_filter {α : Type} (l : List α) (p : α → Bool) :
    (l.map (fun x => if p x then 1 else 0)).sum = (l.filter p).length := by
  induction l with
  | nil => simp
  | cons x t ih =>
    by_cases h : p x
    · simp [h, ih]
      omega
    · simp [h, ih]

theorem sum_indicator_range (n k : ℕ) :
    ((List.range n).map (fun c => if c = k then 1 else 0)).sum
      = if k < n then 1 else 0 := by
  induction n with
  | zero => simp
  | succ n ih =>
    rw [List.range_succ, List.map_append, List.sum_append, ih]
    simp only [List.map_cons, List.map_nil, List.sum_cons, List.sum_nil]
    split_ifs <;> omega

theorem sum_indicator_range_and (n k : ℕ) (D : Prop) [Decidable D] :
    ((List.range n).map (fun c => if c = k ∧ D then 1 else 0)).sum
      = if k < n ∧ D then 1 else 0 := by
  by_cases hD : D
  · simp only [hD, and_true]
    exact sum_indicator_range n k
  · simp [hD]

theorem countEnq_cell (onDisk : ℕ × ℕ → Bool) (col row : ℕ) (a : ℕ × ℕ) :
    ((if onDisk (col, row) then [TileEvent.rep (col, row)]
        else [TileEvent.enq (col, row)]).filter
      (fun e => e = TileEvent.enq a)).length
    = if col = a.1 ∧ (row = a.2 ∧ onDisk a = false) then 1 else 0 := by
  obtain ⟨a1, a2⟩ := a
  by_cases hd : onDisk (col, row)
  · rw [if_pos hd]
    have hleft : ((([TileEvent.rep (col, row)]).filter
        (fun e => e = TileEvent.enq (a1, a2))).length) = 0 := by
      simp
    rw [hleft]
    by_cases hc : col = a1 ∧ (row = a2 ∧ onDisk (a1, a2) = false)
    · obtain ⟨h1, h2, h3⟩ := hc
      subst h1
      subst h2
      rw [hd] at h3
      simp at h3
    · rw [if_neg hc]
  · rw [if_neg hd]
    have hdf : onDisk (col, row) = false := by
      simpa using hd
    by_cases hc : col = a1 ∧ row = a2
    · obtain ⟨h1, h2⟩ := hc
      subst h1
      subst h2
      simp [hdf]
    · have hne : ¬ (TileEvent.enq (col, row) = TileEvent.enq (a1, a2)) := by
        intro h
        apply hc
        have := TileEvent.enq.inj h
        exact ⟨congrArg Prod.fst this, congrArg Prod.snd this⟩
      have hno : ¬ (col = a1 ∧ (row = a2 ∧ onDisk (a1, a2) = false)) := by
        intro h
        exact hc ⟨h.1, h.2.1⟩
      rw [if_neg hno]
      simp [hne]

theorem countEnq_enumLevel (g : ℕ × ℕ) (onDisk : ℕ × ℕ → Bool) (a : ℕ × ℕ) :
    countEnq a (enumLevel g onDisk)
      = if a.1 < g.1 ∧ a.2 < g.2 ∧ onDisk a = false then 1 else 0 := by
  unfold countEnq enumLevel
  rw [filter_flatMap_length]
  have hrow : ∀ row : ℕ,
      (((List.range g.1).flatMap (fun col =>
        if onDisk (col, row) then [TileEvent.rep (col, row)]
        else [TileEvent.enq (col, row)])).filter
          (fun e => e = TileEvent.enq a)).length
      = if row = a.2 ∧ (a.1 < g.1 ∧ onDisk a = false) then 1 else 0 := by
    intro row
    rw [filter_flatMap_length]
    have hcongr : ((List.range g.1).map (fun col =>
        ((if onDisk (col, row) then [TileEvent.rep (col, row)]
          else [TileEvent.enq (col, row)]).filter
            (fun e => e = TileEvent.enq a)).length))
        = ((List.range g.1).map (fun col =>
            if col = a.1 ∧ (row = a.2 ∧ onDisk a = false) then 1 else 0)) := by
      apply List.map_congr_left
      intro col _
      exact countEnq_cell onDisk col row a
    rw [hcongr, sum_indicator_range_and]
    by_cases h1 : a.1 < g.1
    · by_cases h2 : row = a.2 ∧ onDisk a = false
      · rw [if_pos ⟨h1, h2⟩, if_pos ⟨h2.1, h1, h2.2⟩]
      · rw [if_neg (by tauto), if_neg (by tauto)]
    · rw [if_neg (by tauto), if_neg (by tauto)]
  have hcongr2 : ((List.range g.2).map (fun row =>
      (((List.range g.1).flatMap (fun col =>
        if onDisk (col, row) then [TileEvent.rep (col, row)]
        else [TileEvent.enq (col, row)])).filter
          (fun e => e = TileEvent.enq a)).length))
      = ((List.range g.2).map (fun row =>
          if row = a.2 ∧ (a.1 < g.1 ∧ onDisk a = false) then 1 else 0)) := by
    apply List.map_congr_left
    intro row _
    exact hrow row
  rw [hcongr2, sum_indicator_range_and]
  by_cases h1 : a.1 < g.1
  · by_cases h2 : a.2 < g.2
    · by_cases h3 : onDisk a = false
      · rw [if_pos ⟨h2, h1, h3⟩, if_pos ⟨h1, h2, h3⟩]
      · rw [if_neg (by tauto), if_neg (by tauto)]
    · rw [if_neg (by tauto), if_neg (by tauto)]
  · rw [if_neg (by tauto), if_neg (by tauto)]

theorem countEnq_flatMap {α : Type} (a : ℕ × ℕ) (l : List α)
    (f : α → List TileEvent) :
    countEnq a (l.flatMap f) = (l.map (fun x => countEnq a (f x))).sum := by
  unfold countEnq
  exact filter_flatMap_length l f _

theorem countRep_cell (onDisk : ℕ × ℕ → Bool) (col row : ℕ) (a : ℕ × ℕ) :
    ((if onDisk (col, row) then [TileEvent.rep (col, row)]
        else [TileEvent.enq (col, row)]).filter
      (fun e => e = TileEvent.rep a)).length
    = if col = a.1 ∧ (row = a.2 ∧ onDisk a = true) then 1 else 0 := by
  obtain ⟨a1, a2⟩ := a
  by_cases hd : onDisk (col, row)
  · rw [if_pos hd]
    by_cases hc : col = a1 ∧ row = a2
    · obtain ⟨h1, h2⟩ := hc
      subst h1
      subst h2
      simp [hd]
    · have hne : ¬ (TileEvent.rep (col, row) = TileEvent.rep (a1, a2)) := by
        intro h
        apply hc
        have := TileEvent.rep.inj h
        exact ⟨congrArg Prod.fst this, congrArg Prod.snd this⟩
      have hno : ¬ (col = a1 ∧ (row = a2 ∧ onDisk (a1, a2) = true)) := by
        intro h
        exact hc ⟨h.1, h.2.1⟩
      rw [if_neg hno]
      simp [hne]
  · rw [if_neg hd]
    have hleft : ((([TileEvent.enq (col, row)]).filter
        (fun e => e = TileEvent.rep (a1, a2))).length) = 0 := by
      simp
    rw [hleft]
    by_cases hc : col = a1 ∧ (row = a2 ∧ onDisk (a1, a2) = true)
    · obtain ⟨h1, h2, h3⟩ := hc
      subst h1
      subst h2
      rw [h3] at hd
      simp at hd
    · rw [if_neg hc]

theorem countRep_enumLevel (g : ℕ × ℕ) (onDisk : ℕ × ℕ → Bool) (a : ℕ × ℕ) :
    countRep a (enumLevel g onDisk)
      = if a.1 < g.1 ∧ a.2 < g.2 ∧ onDisk a = true then 1 else 0 := by
  unfold countRep enumLevel
  rw [filter_flatMap_length]
  have hrow : ∀ row : ℕ,
      (((List.range g.1).flatMap (fun col =>
        if onDisk (col, row) then [TileEvent.rep (col, row)]
        else [TileEvent.enq (col, row)])).filter
          (fun e => e = TileEvent.rep a)).length
      = if row = a.2 ∧ (a.1 < g.1 ∧ onDisk a = true) then 1 else 0 := by
    intro row
    rw [filter_flatMap_length]
    have hcongr : ((List.range g.1).map (fun col =>
        ((if onDisk (col, row) then [TileEvent.rep (col, row)]
          else [TileEvent.enq (col, row)]).filter
            (fun e => e = TileEvent.rep a)).length))
        = ((List.range g.1).map (fun col =>
            if col = a.1 ∧ (row = a.2 ∧ onDisk a = true) then 1 else 0)) := by
      apply List.map_congr_left
      intro col _
      exact countRep_cell onDisk col row a
    rw [hcongr, sum_indicator_range_and]
    by_cases h1 : a.1 < g.1
    · by_cases h2 : row = a.2 ∧ onDisk a = true
      · rw [if_pos ⟨h1, h2⟩, if_pos ⟨h2.1, h1, h2.2⟩]
      · rw [if_neg (by tauto), if_neg (by tauto)]
    · rw [if_neg (by tauto), if_neg (by tauto)]
  have hcongr2 : ((List.range g.2).map (fun row =>
      (((List.range g.1).flatMap (fun col =>
        if onDisk (col, row) then [TileEvent.rep (col, row)]
        else [TileEvent.enq (col, row)])).filter
          (fun e => e = TileEvent.rep a)).length))
      = ((List.range g.2).map (fun row =>
          if row = a.2 ∧ (a.1 < g.1 ∧ onDisk a = true) then 1 else 0)) := by
    apply List.map_congr_left
    intro row _
    exact hrow row
  rw [hcongr2, sum_indicator_range_and]
  by_cases h1 : a.1 < g.1
  · by_cases h2 : a.2 < g.2
    · by_cases h3 : onDisk a = true
      · rw [if_pos ⟨h2, h1, h3⟩, if_pos ⟨h1, h2, h3⟩]
      · rw [if_neg (by tauto), if_neg (by tauto)]
    · rw [if_neg (by tauto), if_neg (by tauto)]
  · rw [if_neg (by tauto), if_neg (by tauto)]

theorem countRep_flatMap {α : Type} (a : ℕ × ℕ) (l : List α)
    (f : α → List TileEvent) :
    countRep a (l.flatMap f) = (l.map (fun x => countRep a (f x))).sum := by
  unfold countRep
  exact filter_flatMap_length l f _

theorem mem_selectedLevels (Mag a0 : ℚ) (lc l : ℕ) :
    l ∈ selectedLevels Mag a0 lc
      ↔ (l < lc ∧ (0 < Mag → thisMag a0 lc l = Mag)) := by
  unfold selectedLevels levelSelected
  rw [List.mem_filter, List.mem_reverse, List.mem_range]
  constructor
  · rintro ⟨h1, h2⟩
    refine ⟨h1, ?_⟩
    intro hM
    by_contra hne
    rw [decide_eq_true hM, decide_eq_true hne] at h2
    simp at h2
  · rintro ⟨h1, h2⟩
    refine ⟨h1, ?_⟩
    by_cases hM : 0 < Mag
    · rw [decide_eq_true hM, decide_eq_false (by simpa using h2 hM)]
      rfl
    · rw [decide_eq_false hM]
      rfl

theorem length_filter_le_one_of_unique {l : List ℕ} (p : ℕ → Bool)
    (hnd : l.Nodup)
    (h : ∀ x ∈ l, ∀ y ∈ l, p x = true → p y = true → x = y) :
    (l.filter p).length ≤ 1 := by
  rcases hf : l.filter p with _ | ⟨c, t⟩
  · simp
  · have hc : c ∈ l.filter p := by
      rw [hf]
      exact List.mem_cons_self c t
    have hnd2 : (l.filter p).Nodup := hnd.filter p
    have hall : ∀ x ∈ l.filter p, x = c := by
      intro x hx
      have hx2 := List.mem_filter.mp hx
      have hc2 := List.mem_filter.mp hc
      exact h x hx2.1 c hc2.1 hx2.2 hc2.2
    rw [← hf]
    exact length_le_one_of_nodup_const hnd2 hall

theorem selectedLevels_len_le_one {Mag : ℚ} (a0 : ℚ) (hM : 0 < Mag) (lc : ℕ) :
    (selectedLevels Mag a0 lc).length ≤ 1 := by
  unfold selectedLevels
  apply length_filter_le_one_of_unique _
    (List.nodup_reverse.mpr (List.nodup_range lc))
  intro x hx y hy hpx hpy
  have hx2 : x < lc := List.mem_range.mp (List.mem_reverse.mp hx)
  have hy2 : y < lc := List.mem_range.mp (List.mem_reverse.mp hy)
  have hmx : thisMag a0 lc x = Mag := by
    by_contra hne
    rw [levelSelected, decide_eq_true hM, decide_eq_true hne] at hpx
    simp at hpx
  have hmy : thisMag a0 lc y = Mag := by
    by_contra hne
    rw [levelSelected, decide_eq_true hM, decide_eq_true hne] at hpy
    simp at hpy
  have ha0 : a0 ≠ 0 := by
    intro h0
    rw [thisMag, h0, zero_div] at hmx
    exact absurd hmx (ne_of_lt hM)
  have heq : thisMag a0 lc x = thisMag a0 lc y := hmx.trans hmy.symm
  rw [thisMag, thisMag,
    div_eq_div_iff (by positivity : (0:ℚ) < 2 ^ (lc - (x+1))).ne'
      (by positivity : (0:ℚ) < 2 ^ (lc - (y+1))).ne'] at heq
  have hpow : (2:ℚ) ^ (lc - (y+1)) = (2:ℚ) ^ (lc - (x+1)) :=
    mul_left_cancel₀ ha0 heq
  have hnat : (2:ℕ) ^ (lc - (y+1)) = 2 ^ (lc - (x+1)) := by
    exact_mod_cast hpow
  have := Nat.pow_right_injective (le_refl 2) hnat
  omega

theorem stainDictArgAfter_ne : ∀ {img : List ℕ}, 0 ∈ img →
    stainDictArgAfter img ≠ img := by
  intro img
  induction img with
  | nil => intro h; simp at h
  | cons x xs ih =>
    intro h
    simp only [stainDictArgAfter, List.map_cons, ne_eq, List.cons.injEq, not_and]
    intro hx
    by_cases h0 : x = 0
    · subst h0
      simp at hx
    · have hxs : 0 ∈ xs := by
        rcases List.mem_cons.mp h with h | h
        · exact absurd h.symm h0
        · exact h
      intro hmap
      exact ih hxs hmap

/-! ## Claim theorems -/

/-- **C1** (counterexample): a tile whose 11 luminance values are all dark
(`0..10`), with background threshold `Bkg = 50` and no ROI constraint, is
*accepted* by the code (11 distinct values, `avgBkg = 0 ≤ 0.5`), although the
claim's `fg` — the fraction of pixels *below* 220 — is 1, which is not
`≤ 0.5`: the claim's acceptance condition `fg ≤ Bkg/100` predicts rejection.
The quantity the code caps is the fraction of pixels *at or above* 220. -/
theorem c1_filter_counterexample :
    tileWorkerOut (List.range 11) 50 0 1 "tile.jpeg" = ["tile.jpeg"]
    ∧ ¬ (specFgFrac (List.range 11) ≤ 50 / 100) := by
  have hu : uniqueCount (List.range 11) = 11 := by decide
  have he : ((List.range 11).filter (fun x => 220 ≤ x)) = [] := by decide
  have hb : avgBkg (List.range 11) = 0 := by
    unfold avgBkg
    rw [he]
    simp
  have hacc : tileAccept (List.range 11) 50 0 1 := by
    refine ⟨by rw [hu]; norm_num, by rw [hb]; norm_num, by norm_num⟩
  constructor
  · unfold tileWorkerOut
    rw [if_pos hacc]
  · have hf : ((List.range 11).filter (fun x => x < 220)) = List.range 11 := by
      decide
    unfold specFgFrac
    rw [hf]
    simp only [List.length_range]
    norm_num

/-- **C1** (amended): a decoded tile is accepted — normalized, written and
its path reported — if and only if its distinct-luminance-value count
exceeds 10, the fraction of pixels **at or above** brightness 220 (the
code's `avgBkg`, i.e. `1 - fg`) is at most `Bkg/100`, and the job's
ROI-mask fraction is at least `ROIpc/100`; a tile failing any condition
produces no output; an all-white tile (a single luminance value) is always
rejected regardless of the background threshold. -/
theorem c1_tile_filter (g : List ℕ) (Bkg ROIpc PM : ℚ) (outfile : String) :
    (tileWorkerOut g Bkg ROIpc PM outfile = [outfile]
      ↔ (10 < uniqueCount g ∧ avgBkg g ≤ Bkg / 100 ∧ ROIpc / 100 ≤ PM))
    ∧ (¬ (10 < uniqueCount g ∧ avgBkg g ≤ Bkg / 100 ∧ ROIpc / 100 ≤ PM) →
        tileWorkerOut g Bkg ROIpc PM outfile = [])
    ∧ (∀ (c n : ℕ), 0 < n →
        tileWorkerOut (List.replicate n c) Bkg ROIpc PM outfile = []) := by
  refine ⟨?_, ?_, ?_⟩
  · by_cases h : tileAccept g Bkg ROIpc PM
    · rw [tileWorkerOut, if_pos h]
      exact ⟨fun _ => h, fun _ => rfl⟩
    · rw [tileWorkerOut, if_neg h]
      constructor
      · intro habs
        exact absurd habs (by simp)
      · intro habs
        exact absurd habs h
  · intro h
    have h2 : ¬ tileAccept g Bkg ROIpc PM := h
    rw [tileWorkerOut, if_neg h2]
  · intro c n _
    have hle := uniqueCount_replicate_le_one n c
    have hna : ¬ tileAccept (List.replicate n c) Bkg ROIpc PM := by
      intro hacc
      have h1 : 10 < uniqueCount (List.replicate n c) := And.left hacc
      omega
    rw [tileWorkerOut, if_neg hna]

/-- **C1** (witness): the amended theorem applied to the all-white tile
`replicate 3 255` and to a flat tile `[5]` (which fails the distinct-count
condition), both with `Bkg = 50`, `ROIpc = 0`, `PM = 1`: no output. -/
theorem c1_tile_filter_witness :
    tileWorkerOut (List.replicate 3 255) 50 0 1 "t.jpeg" = []
    ∧ tileWorkerOut [5] 50 0 1 "t.jpeg" = [] := by
  refine ⟨(c1_tile_filter (List.replicate 3 255) 50 0 1 "t.jpeg").2.2 255 3
    (by decide), ?_⟩
  apply (c1_tile_filter [5] 50 0 1 "t.jpeg").2.1
  intro h
  exact absurd h.1 (by decide)

/-- **C7** (counterexample): one slide with the single tile `t.jpeg` and
factor 2.  The first run creates `t_90.jpeg` and extends the list to
`[t, t_90]`.  Running a second time **on the same (mutated) dictionary**
iterates over `t_90.jpeg` too: it creates the new file `t_90_90.jpeg`
(the filesystem grows) and re-appends `t_90.jpeg` (a duplicate path), and
the list grows again — contradicting "creates no new files", "length
unchanged beyond the first run's additions" and "no duplicate paths". -/
theorem c7_augment_counterexample :
    augment_tiles_based_on_factor [⟨"t", ".jpeg"⟩] [⟨"t", ".jpeg"⟩] 2
      = ([⟨"t", ".jpeg"⟩, ⟨"t_90", ".jpeg"⟩],
         [⟨"t", ".jpeg"⟩, ⟨"t_90", ".jpeg"⟩])
    ∧ (augment_tiles_based_on_factor [⟨"t", ".jpeg"⟩, ⟨"t_90", ".jpeg"⟩]
        [⟨"t", ".jpeg"⟩, ⟨"t_90", ".jpeg"⟩] 2).1
      ≠ [⟨"t", ".jpeg"⟩, ⟨"t_90", ".jpeg"⟩]
    ∧ (augment_tiles_based_on_factor [⟨"t", ".jpeg"⟩, ⟨"t_90", ".jpeg"⟩]
        [⟨"t", ".jpeg"⟩, ⟨"t_90", ".jpeg"⟩] 2).2.length = 4
    ∧ ¬ (augment_tiles_based_on_factor [⟨"t", ".jpeg"⟩, ⟨"t_90", ".jpeg"⟩]
        [⟨"t", ".jpeg"⟩, ⟨"t_90", ".jpeg"⟩] 2).2.Nodup := by
  refine ⟨by decide, by decide, by decide, by decide⟩

/-- **C7** (amended): re-running `augment_tiles_based_on_factor` with the
same factor on a tile dictionary **rebuilt to contain only the original
tiles** (as a fresh pipeline run produces), against the filesystem left by
the first run, creates no new files and returns exactly the first run's
tile list: every derived file name already exists and is skipped rather
than regenerated.  Run instead on the first run's mutated list itself, the
claim fails (see the counterexample). -/
theorem c7_augment_rebuilt_idempotent (fs tiles : List TName) (factor : ℕ) :
    augment_tiles_based_on_factor
        (augment_tiles_based_on_factor fs tiles factor).1 tiles factor
      = augment_tiles_based_on_factor fs tiles factor := by
  unfold augment_tiles_based_on_factor
  refine Prod.ext ?_ rfl
  exact foldl_addIfNew_eq_self (fun a ha => mem_foldl_addIfNew_right _ _ ha)

/-- **C4** (counterexample): a slide with two deep-zoom levels whose grids
are both 1×1, tiled with no target magnification (`Mag = 0`) over an empty
filesystem: the output name contains only `(col, row)`, not the level, so
the *same* output path `(0,0)` is enqueued twice — refuting "a TileJob is
enqueued at most once per output path". -/
theorem c4_enqueue_counterexample :
    countEnq (0, 0) (write_tiles (some 20) ".svs" [1] 2 (fun _ => (1, 1)) 0
      (fun _ => false)) = 2 := by
  have hd : (decide ((0:ℚ) < 0)) = false := decide_eq_false (lt_irrefl 0)
  have h1 : selectedLevels 0 (20/1 : ℚ) 2 = [1, 0] := by
    unfold selectedLevels levelSelected
    simp [hd, List.range_succ]
  have h2 : enumLevel (1, 1) (fun _ => false) = [TileEvent.enq (0, 0)] := by
    decide
  have h3 : write_tiles (some 20) ".svs" [1] 2 (fun _ => (1, 1)) 0
      (fun _ => false)
      = (selectedLevels 0 (20/1 : ℚ) 2).flatMap
          (fun level => enumLevel ((fun _ => ((1 : ℕ), (1 : ℕ))) level)
            (fun _ => false)) := rfl
  rw [countEnq, h3, h1]
  simp only [List.flatMap_cons, List.flatMap_nil, h2]
  decide

/-- **C4** (amended): for every enumerated tile address, if a file already
exists at its canonical output path then no TileJob is enqueued for it and
the path *is reported directly on the result channel* — once per selected
level whose grid contains the address, and never when the file is absent;
otherwise exactly one TileJob is enqueued per *selected level* whose grid
contains the address — so with a target magnification > 0 (at most one
level selected, since distinct levels have distinct `ThisMag`) a TileJob is
enqueued at most once per output path, but with no target magnification the
same path may be enqueued once per level, the level not being part of the
file name; a re-run over fully existing output enqueues nothing and reports
every covered path. -/
theorem c4_write_tiles_enqueue (o f0 : ℚ) (rest : List ℚ) (ext : String)
    (lc : ℕ) (grids : ℕ → ℕ × ℕ) (Mag : ℚ) (onDisk : ℕ × ℕ → Bool)
    (a : ℕ × ℕ) :
    (onDisk a = true →
      countEnq a (write_tiles (some o) ext (f0 :: rest) lc grids Mag onDisk)
        = 0)
    ∧ (onDisk a = false →
      countEnq a (write_tiles (some o) ext (f0 :: rest) lc grids Mag onDisk)
        = ((selectedLevels Mag (o / f0) lc).filter
            (fun l => decide (a.1 < (grids l).1)
              && decide (a.2 < (grids l).2))).length)
    ∧ (0 < Mag →
      countEnq a (write_tiles (some o) ext (f0 :: rest) lc grids Mag onDisk)
        ≤ 1)
    ∧ (onDisk a = true →
      countRep a (write_tiles (some o) ext (f0 :: rest) lc grids Mag onDisk)
        = ((selectedLevels Mag (o / f0) lc).filter
            (fun l => decide (a.1 < (grids l).1)
              && decide (a.2 < (grids l).2))).length)
    ∧ (onDisk a = false →
      countRep a (write_tiles (some o) ext (f0 :: rest) lc grids Mag onDisk)
        = 0) := by
  have hev : write_tiles (some o) ext (f0 :: rest) lc grids Mag onDisk
      = (selectedLevels Mag (o / f0) lc).flatMap
          (fun level => enumLevel (grids level) onDisk) := rfl
  have hsum : countEnq a
      (write_tiles (some o) ext (f0 :: rest) lc grids Mag onDisk)
      = ((selectedLevels Mag (o / f0) lc).map
          (fun l => if a.1 < (grids l).1 ∧ a.2 < (grids l).2
              ∧ onDisk a = false then 1 else 0)).sum := by
    rw [hev, countEnq_flatMap]
    congr 1
    apply List.map_congr_left
    intro l _
    exact countEnq_enumLevel (grids l) onDisk a
  have hzero : onDisk a = true →
      countEnq a (write_tiles (some o) ext (f0 :: rest) lc grids Mag onDisk)
        = 0 := by
    intro h
    rw [hsum]
    have : ((selectedLevels Mag (o / f0) lc).map
        (fun l => if a.1 < (grids l).1 ∧ a.2 < (grids l).2
            ∧ onDisk a = false then 1 else 0))
        = ((selectedLevels Mag (o / f0) lc).map (fun _ => 0)) := by
      apply List.map_congr_left
      intro l _
      rw [if_neg]
      rintro ⟨-, -, hfa⟩
      rw [h] at hfa
      simp at hfa
    rw [this]
    simp
  have hformula : onDisk a = false →
      countEnq a (write_tiles (some o) ext (f0 :: rest) lc grids Mag onDisk)
        = ((selectedLevels Mag (o / f0) lc).filter
            (fun l => decide (a.1 < (grids l).1)
              && decide (a.2 < (grids l).2))).length := by
    intro h
    rw [hsum]
    have : ((selectedLevels Mag (o / f0) lc).map
        (fun l => if a.1 < (grids l).1 ∧ a.2 < (grids l).2
            ∧ onDisk a = false then 1 else 0))
        = ((selectedLevels Mag (o / f0) lc).map
            (fun l => if (decide (a.1 < (grids l).1)
                && decide (a.2 < (grids l).2)) = true then 1 else 0)) := by
      apply List.map_congr_left
      intro l _
      rw [h]
      simp [Bool.and_eq_true, decide_eq_true_eq]
    rw [this, sum_map_ite_eq_length_filter]
  have hsumR : countRep a
      (write_tiles (some o) ext (f0 :: rest) lc grids Mag onDisk)
      = ((selectedLevels Mag (o / f0) lc).map
          (fun l => if a.1 < (grids l).1 ∧ a.2 < (grids l).2
              ∧ onDisk a = true then 1 else 0)).sum := by
    rw [hev, countRep_flatMap]
    congr 1
    apply List.map_congr_left
    intro l _
    exact countRep_enumLevel (grids l) onDisk a
  have hrep : onDisk a = true →
      countRep a (write_tiles (some o) ext (f0 :: rest) lc grids Mag onDisk)
        = ((selectedLevels Mag (o / f0) lc).filter
            (fun l => decide (a.1 < (grids l).1)
              && decide (a.2 < (grids l).2))).length := by
    intro h
    rw [hsumR]
    have : ((selectedLevels Mag (o / f0) lc).map
        (fun l => if a.1 < (grids l).1 ∧ a.2 < (grids l).2
            ∧ onDisk a = true then 1 else 0))
        = ((selectedLevels Mag (o / f0) lc).map
            (fun l => if (decide (a.1 < (grids l).1)
                && decide (a.2 < (grids l).2)) = true then 1 else 0)) := by
      apply List.map_congr_left
      intro l _
      rw [h]
      simp [Bool.and_eq_true, decide_eq_true_eq]
    rw [this, sum_map_ite_eq_length_filter]
  have hrep0 : onDisk a = false →
      countRep a (write_tiles (some o) ext (f0 :: rest) lc grids Mag onDisk)
        = 0 := by
    intro h
    rw [hsumR]
    have : ((selectedLevels Mag (o / f0) lc).map
        (fun l => if a.1 < (grids l).1 ∧ a.2 < (grids l).2
            ∧ onDisk a = true then 1 else 0))
        = ((selectedLevels Mag (o / f0) lc).map (fun _ => 0)) := by
      apply List.map_congr_left
      intro l _
      rw [if_neg]
      rintro ⟨-, -, hfa⟩
      rw [h] at hfa
      simp at hfa
    rw [this]
    simp
  refine ⟨hzero, hformula, ?_, hrep, hrep0⟩
  intro hM
  by_cases h : onDisk a = true
  · rw [hzero h]
    omega
  · have hf : onDisk a = false := by simpa using h
    rw [hformula hf]
    calc ((selectedLevels Mag (o / f0) lc).filter _).length
        ≤ (selectedLevels Mag (o / f0) lc).length := List.length_filter_le _ _
      _ ≤ 1 := selectedLevels_len_le_one (o / f0) hM lc

/-- **C4** (witness): the amended theorem applied with every output already
on disk (`onDisk = fun _ => true`) and target magnification 20 (selecting
only level 1 of 2): no TileJob is enqueued for address `(0,0)`, the enqueue
count is at most 1, and the path is reported on the result channel exactly
once. -/
theorem c4_write_tiles_enqueue_witness :
    countEnq (0, 0) (write_tiles (some 20) ".svs" [1] 2 (fun _ => (1, 1)) 20
      (fun _ => true)) = 0
    ∧ countEnq (0, 0) (write_tiles (some 20) ".svs" [1] 2 (fun _ => (1, 1)) 20
      (fun _ => true)) ≤ 1
    ∧ countRep (0, 0) (write_tiles (some 20) ".svs" [1] 2 (fun _ => (1, 1)) 20
      (fun _ => true)) = 1 := by
  have hs1 : levelSelected 20 (20 : ℚ) 2 1 = true := by
    unfold levelSelected thisMag
    rw [decide_eq_true (by norm_num : (0:ℚ) < 20),
      decide_eq_false
        (not_not_intro (by norm_num : (20:ℚ) / 2 ^ (2 - (1+1)) = 20))]
    rfl
  have hs0 : levelSelected 20 (20 : ℚ) 2 0 = false := by
    unfold levelSelected thisMag
    rw [decide_eq_true (by norm_num : (0:ℚ) < 20),
      decide_eq_true (by norm_num : (20:ℚ) / 2 ^ (2 - (0+1)) ≠ 20)]
    rfl
  have hsel : selectedLevels 20 ((20 : ℚ)/1) 2 = [1] := by
    unfold selectedLevels
    rw [show (List.range 2).reverse = [1, 0] from by decide]
    simp [List.filter_cons, hs1, hs0]
  refine ⟨(c4_write_tiles_enqueue 20 1 [] ".svs" 2 (fun _ => (1, 1)) 20
      (fun _ => true) (0, 0)).1 rfl,
    (c4_write_tiles_enqueue 20 1 [] ".svs" 2 (fun _ => (1, 1)) 20
      (fun _ => true) (0, 0)).2.2.1 (by norm_num), ?_⟩
  have h := (c4_write_tiles_enqueue 20 1 [] ".svs" 2 (fun _ => (1, 1)) 20
      (fun _ => true) (0, 0)).2.2.2.1 rfl
  rw [h, hsel]
  decide

/-- **C6** (confirmed): the levels actually tiled are exactly those whose
effective magnification `objective / 2^(level_count - (level+1))` equals the
target when a target magnification > 0 is configured, and all levels
otherwise; the objective power is the slide metadata value when present,
else 1.0 when the extension contains `jpg` or `dcm`, else 20.0 when it
contains `tiff` or `btf`; when no inference is possible (or the slide has no
native levels) zero jobs are produced. -/
theorem c6_level_selection (o : ℚ) (ext : String) (meta : Option ℚ)
    (rest : List ℚ) (lc : ℕ) (grids : ℕ → ℕ × ℕ) (Mag : ℚ)
    (onDisk : ℕ × ℕ → Bool) :
    (inferObjective (some o) ext = some o)
    ∧ ((containsSub ext "jpg" = true ∨ containsSub ext "dcm" = true) →
        inferObjective none ext = some 1)
    ∧ (containsSub ext "jpg" = false → containsSub ext "dcm" = false →
        (containsSub ext "tiff" = true ∨ containsSub ext "btf" = true) →
        inferObjective none ext = some 20)
    ∧ (inferObjective meta ext = none →
        write_tiles meta ext (1 :: rest) lc grids Mag onDisk = [])
    ∧ (write_tiles (some o) ext [] lc grids Mag onDisk = [])
    ∧ (∀ l, l ∈ selectedLevels Mag (o / 1) lc
        ↔ (l < lc ∧ (0 < Mag → o / 2 ^ (lc - (l + 1)) = Mag)))
    ∧ (¬ 0 < Mag → selectedLevels Mag (o / 1) lc = (List.range lc).reverse)
    ∧ (write_tiles (some o) ext (1 :: rest) lc grids Mag onDisk
        = (selectedLevels Mag (o / 1) lc).flatMap
            (fun level => enumLevel (grids level) onDisk)) := by
  refine ⟨rfl, ?_, ?_, ?_, rfl, ?_, ?_, rfl⟩
  · intro h
    rcases h with h | h <;> simp [inferObjective, h]
  · intro hj hd h
    rcases h with h | h <;> simp [inferObjective, hj, hd, h]
  · intro h
    simp [write_tiles, h]
  · intro l
    rw [mem_selectedLevels]
    unfold thisMag
    rw [div_one]
  · intro hM
    unfold selectedLevels
    apply List.filter_eq_self.mpr
    intro l _
    unfold levelSelected
    rw [decide_eq_false hM]
    rfl

/-- **C6** (witness): the theorem applied concretely — a `.jpg` input with
no metadata infers objective 1; a `.svs` input with no metadata infers
nothing and produces zero events; with objective 20 and target 20 the
deep-zoom level 2 of 3 (downsample `2^0`) is selected. -/
theorem c6_level_selection_witness :
    inferObjective none ".jpg" = some 1
    ∧ write_tiles none ".svs" [1] 1 (fun _ => (1, 1)) 0 (fun _ => false) = []
    ∧ 2 ∈ selectedLevels 20 ((20 : ℚ) / 1) 3 := by
  refine ⟨(c6_level_selection 20 ".jpg" none [] 1 (fun _ => (1, 1)) 0
      (fun _ => false)).2.1 (Or.inl (by decide)), ?_, ?_⟩
  · exact (c6_level_selection 20 ".svs" none [] 1 (fun _ => (1, 1)) 0
      (fun _ => false)).2.2.2.1 (by decide)
  · exact ((c6_level_selection 20 ".svs" none [] 3 (fun _ => (1, 1)) 20
      (fun _ => false)).2.2.2.2.2.1 2).mpr
      ⟨by norm_num, fun _ => by norm_num⟩

/-- **C3** (counterexample): with class counts `{A:1, B:17}` (minimum `m = 1`)
the code assigns class `B` the factor `round(1*8/17) = 0`, so the claim's
"the assigned factor is ≥ 1 for every class" is false. -/
theorem c3_factor_counterexample :
    ¬ (∀ p ∈ calc_augmentation_factor [(0, 1), (1, 17)] 1, 1 ≤ p.2.2) := by
  intro h
  have h17 : augFactor 1 17 = 0 := by norm_num [augFactor, pyRound]
  have hm : ((1 : ℕ), (17 : ℕ), augFactor 1 17)
      ∈ calc_augmentation_factor [(0, 1), (1, 17)] 1 := by
    simp [calc_augmentation_factor]
  have h1 := h _ hm
  rw [h17] at h1
  exact absurd h1 (by norm_num)

/-- **C3** (amended): `calc_augmentation_factor` assigns factor 8 to every
class whose count equals the minimum `m` and `round(m*8/n)` (Python
round-half-to-even) to every other class with count `n`; the assigned factor
is ≥ 1 for every class whose count `n` satisfies `n < 16*m` (with `m ≥ 1`) —
a class with `n ≥ 16*m` may receive factor 0 — and counts
`{A:483, B:1120, C:197}` yield factor 8 for C, 3 for A and 1 for B. -/
theorem c3_calc_augmentation_factor (counts : List (ℕ × ℕ)) (m : ℕ) :
    (∀ p ∈ counts, (p.1, p.2, augFactor m p.2) ∈ calc_augmentation_factor counts m)
    ∧ (∀ v : ℕ, v = m → augFactor m v = 8)
    ∧ (∀ v : ℕ, v ≠ m → augFactor m v = pyRound ((m : ℚ) * 8 / (v : ℚ)))
    ∧ (∀ v : ℕ, 1 ≤ m → m ≤ v → v < 16 * m → 1 ≤ augFactor m v)
    ∧ calc_augmentation_factor [(0, 483), (1, 1120), (2, 197)] 197
        = [(0, 483, 3), (1, 1120, 1), (2, 197, 8)] := by
  have hA : augFactor 197 483 = 3 := by norm_num [augFactor, pyRound]
  have hB : augFactor 197 1120 = 1 := by norm_num [augFactor, pyRound]
  have hC : augFactor 197 197 = 8 := by norm_num [augFactor]
  refine ⟨?_, ?_, ?_, ?_, by simp [calc_augmentation_factor, hA, hB, hC]⟩
  · intro p hp
    exact List.mem_map.mpr ⟨p, hp, rfl⟩
  · intro v hv
    simp [augFactor, hv]
  · intro v hv
    simp [augFactor, hv]
  · intro v hm hmv hv
    exact augFactor_ge_one hm hmv hv

/-- **C3** (witness): the amended theorem applied at the concrete counts
`{A:483, B:1120, C:197}` with `m = 197`: class A's entry is present with
factor `augFactor 197 483`, and a factor at a count below `16*m` is ≥ 1. -/
theorem c3_calc_augmentation_factor_witness :
    ((0, 483, augFactor 197 483)
        ∈ calc_augmentation_factor [(0, 483), (1, 1120), (2, 197)] 197)
    ∧ 1 ≤ augFactor 197 483 := by
  refine ⟨(c3_calc_augmentation_factor [(0, 483), (1, 1120), (2, 197)] 197).1
      (0, 483) (by decide), ?_⟩
  exact (c3_calc_augmentation_factor [(0, 483), (1, 1120), (2, 197)] 197).2.2.2.1
    483 (by decide) (by decide) (by decide)

/-- **C5** (counterexample): one label with a single slide and
`validation_split = 0.2`: `int(1*0.2) = 0`, but Python's `files[-0:]` is the
whole list, so the slide lands in *both* outputs — the validation side does
not have `int(k*v)` slides and the slide does not appear in exactly one
output. -/
theorem c5_split_counterexample :
    pyIntOfMul 1 (1/5 : ℚ) = 0
    ∧ (get_train_valid_split [[(0 : ℕ)]] (1/5 : ℚ)).2.length = 1
    ∧ (0 : ℕ) ∈ (get_train_valid_split [[(0 : ℕ)]] (1/5 : ℚ)).1
    ∧ (0 : ℕ) ∈ (get_train_valid_split [[(0 : ℕ)]] (1/5 : ℚ)).2 := by
  have h0 : pyIntOfMul 1 (1/5 : ℚ) = 0 := by
    norm_num [pyIntOfMul]
  have h0i : pyIntOfMul 1 ((5 : ℚ)⁻¹) = 0 := by
    rw [← one_div]
    exact h0
  have hs : get_train_valid_split [[(0 : ℕ)]] (1/5 : ℚ) = ([0], [0]) := by
    simp [get_train_valid_split, splitLabel, pySliceTo, pyTailSlice, h0i]
  rw [hs]
  exact ⟨h0, by simp, by simp, by simp⟩

/-- **C5** (amended): for every label whose (shuffled) slide list `g` has
`num_val = int(len(g)*v)` with `1 ≤ num_val ≤ len(g)`, the label contributes
exactly `num_val` slides to validation and `len(g) - num_val` to train, and
the two parts partition `g` (every slide in exactly one); when
`int(len(g)*v) = 0` the *entire* list goes to both train and validation
(Python's `files[-0:]` slice). -/
theorem c5_get_train_valid_split {α : Type} (g : List α) (v : ℚ) :
    (1 ≤ pyIntOfMul g.length v → pyIntOfMul g.length v ≤ g.length →
      (splitLabel g v).1 = g.take (g.length - pyIntOfMul g.length v)
      ∧ (splitLabel g v).2 = g.drop (g.length - pyIntOfMul g.length v)
      ∧ (splitLabel g v).1.length = g.length - pyIntOfMul g.length v
      ∧ (splitLabel g v).2.length = pyIntOfMul g.length v
      ∧ (splitLabel g v).1 ++ (splitLabel g v).2 = g)
    ∧ (pyIntOfMul g.length v = 0 →
      (splitLabel g v).1 = g ∧ (splitLabel g v).2 = g)
    ∧ get_train_valid_split [g] v
        = ((splitLabel g v).1, (splitLabel g v).2) := by
  constructor
  · intro h1 h2
    have hnz : pyIntOfMul g.length v ≠ 0 := by omega
    have hcast : ((g.length : ℤ) - (pyIntOfMul g.length v : ℤ)).toNat
        = g.length - pyIntOfMul g.length v := by omega
    have hnn : (0 : ℤ) ≤ (g.length : ℤ) - (pyIntOfMul g.length v : ℤ) := by
      omega
    have htr : (splitLabel g v).1 = g.take (g.length - pyIntOfMul g.length v) := by
      simp only [splitLabel, pySliceTo, if_pos hnn, hcast]
    have hva : (splitLabel g v).2 = g.drop (g.length - pyIntOfMul g.length v) := by
      simp only [splitLabel, pyTailSlice, if_neg hnz]
    refine ⟨htr, hva, ?_, ?_, ?_⟩
    · rw [htr, List.length_take]
      omega
    · rw [hva, List.length_drop]
      omega
    · rw [htr, hva, List.take_append_drop]
  constructor
  · intro h0
    have hnn : (0 : ℤ) ≤ (g.length : ℤ) - (pyIntOfMul g.length v : ℤ) := by
      omega
    constructor
    · simp [splitLabel, pySliceTo, h0]
    · simp [splitLabel, pyTailSlice, h0]
  · simp [get_train_valid_split]

/-- **C5** (witness): the amended theorem applied to a label with 10 slides
and `v = 0.2 = 1/5`: exactly 2 validation and 8 train slides, partitioning
the input. -/
theorem c5_get_train_valid_split_witness :
    (splitLabel [0, 1, 2, 3, 4, 5, 6, 7, 8, 9] (1/5 : ℚ)).1.length = 8
    ∧ (splitLabel [0, 1, 2, 3, 4, 5, 6, 7, 8, 9] (1/5 : ℚ)).2.length = 2
    ∧ (splitLabel [0, 1, 2, 3, 4, 5, 6, 7, 8, 9] (1/5 : ℚ)).1
        ++ (splitLabel [0, 1, 2, 3, 4, 5, 6, 7, 8, 9] (1/5 : ℚ)).2
        = [0, 1, 2, 3, 4, 5, 6, 7, 8, 9] := by
  have h2 : pyIntOfMul ([0, 1, 2, 3, 4, 5, 6, 7, 8, 9] : List ℕ).length (1/5 : ℚ)
      = 2 := by
    norm_num [pyIntOfMul]
    decide
  have h := (c5_get_train_valid_split [0, 1, 2, 3, 4, 5, 6, 7, 8, 9] (1/5 : ℚ)).1
    (by rw [h2]; norm_num) (by rw [h2]; norm_num)
  refine ⟨?_, ?_, h.2.2.2.2⟩
  · rw [h.2.2.1, h2]
    norm_num
  · rw [h.2.2.2.1, h2]

/-- **C2** (counterexample): a plausible `trainDL` output (non-negative
atoms inside the unit ball) for which the *returned* dictionary violates
`row0[0] ≥ row1[0]`: rows `[3/10, 2/5, 0]` (norm `1/2`) and `[1/4, 0, 0]`
(norm `1/4`) need no swap (`3/10 ≥ 1/4`), but row normalization rescales
each row by its own norm, giving first-channel values `3/5 < 1`. -/
theorem c2_row_order_counterexample :
    stain_dict_Vahadane ![![3/10, 2/5, 0], ![1/4, 0, 0]] 0 0
      < stain_dict_Vahadane ![![3/10, 2/5, 0], ![1/4, 0, 0]] 1 0 := by
  have hns : ¬ ((![![3/10, 2/5, 0], ![1/4, 0, 0]] : StainMat) 0 0
      < (![![3/10, 2/5, 0], ![1/4, 0, 0]] : StainMat) 1 0) := by
    simp
    norm_num
  have hsw : sdSwap ![![3/10, 2/5, 0], ![1/4, 0, 0]]
      = ![![3/10, 2/5, 0], ![1/4, 0, 0]] := by
    unfold sdSwap
    rw [if_neg hns]
  have hz : ¬ rowIsZero ((![![3/10, 2/5, 0], ![1/4, 0, 0]] : StainMat) 1) := by
    intro h
    obtain ⟨h1, -, -⟩ := h
    simp at h1
  have hr0 : rowNormSq ((![![3/10, 2/5, 0], ![1/4, 0, 0]] : StainMat) 0)
      = 1/4 := by
    simp [rowNormSq]
    norm_num
  have hr1 : rowNormSq ((![![3/10, 2/5, 0], ![1/4, 0, 0]] : StainMat) 1)
      = 1/16 := by
    simp [rowNormSq]
    norm_num
  unfold stain_dict_Vahadane
  rw [hsw, if_neg hz, if_neg hz, hr0, hr1,
    show ((1/4 : ℚ) : ℝ) = (1/2)^2 by norm_num,
    Real.sqrt_sq (by norm_num : (0:ℝ) ≤ 1/2),
    show ((1/16 : ℚ) : ℝ) = (1/4)^2 by norm_num,
    Real.sqrt_sq (by norm_num : (0:ℝ) ≤ 1/4)]
  simp
  norm_num

/-- **C2** (amended): the row swap guarantees `row0[0] ≥ row1[0]` for the
matrix it produces, and hence for the returned dictionary whenever the row
normalization is skipped (row 1 zero); the row-normalized return value need
not satisfy the ordering, since each row is rescaled by its own Euclidean
norm (see the counterexample). -/
theorem c2_stain_dict_row_order (W : StainMat) :
    (sdSwap W 1 0 ≤ sdSwap W 0 0)
    ∧ (rowIsZero (sdSwap W 1) →
        stain_dict_Vahadane W 1 0 ≤ stain_dict_Vahadane W 0 0) := by
  have hsw : sdSwap W 1 0 ≤ sdSwap W 0 0 := by
    unfold sdSwap
    by_cases h : W 0 0 < W 1 0
    · rw [if_pos h]
      simp only [Matrix.cons_val_one, Matrix.head_cons, Matrix.cons_val_zero]
      exact le_of_lt h
    · rw [if_neg h]
      exact le_of_not_lt h
  refine ⟨hsw, ?_⟩
  intro hz
  unfold stain_dict_Vahadane
  rw [if_pos hz, if_pos hz]
  exact_mod_cast hsw

/-- **C2** (witness): the ordering theorem applied to a `trainDL` output
with zero row 1 and the rows initially out of order: the swap restores the
ordering and the returned (unnormalized) dictionary keeps it. -/
theorem c2_stain_dict_row_order_witness :
    stain_dict_Vahadane ![![0, 0, 0], ![2, 0, 0]] 1 0
      ≤ stain_dict_Vahadane ![![0, 0, 0], ![2, 0, 0]] 0 0 := by
  apply (c2_stain_dict_row_order ![![0, 0, 0], ![2, 0, 0]]).2
  have hsw : sdSwap ![![0, 0, 0], ![2, 0, 0]]
      = ![![2, 0, 0], ![0, 0, 0]] := by
    unfold sdSwap
    rw [if_pos (by simp)]
    simp
  rw [hsw]
  exact ⟨by simp, by simp, by simp⟩

/-- **C8** (counterexample): for the `trainDL` output `[[1/2,0,0],[0,0,0]]`
(no swap needed, row 1 zero) the code skips normalization entirely and
returns row 0 as `[1/2, 0, 0]`, although row 0 is *not* the zero vector and
the claim says it is divided by its Euclidean norm (which would give first
channel `(1/2)/√(1/4) = 1 ≠ 1/2`). -/
theorem c8_normalize_counterexample :
    ¬ rowIsZero (sdSwap ![![1/2, 0, 0], ![0, 0, 0]] 0)
    ∧ stain_dict_Vahadane ![![1/2, 0, 0], ![0, 0, 0]] 0 0 = ((1/2 : ℚ) : ℝ)
    ∧ ((sdSwap ![![1/2, 0, 0], ![0, 0, 0]] 0 0 : ℚ) : ℝ)
        / Real.sqrt ((rowNormSq (sdSwap ![![1/2, 0, 0], ![0, 0, 0]] 0) : ℚ) : ℝ)
        = 1
    ∧ ((1/2 : ℚ) : ℝ) ≠ 1 := by
  have hns : ¬ ((![![1/2, 0, 0], ![0, 0, 0]] : StainMat) 0 0
      < (![![1/2, 0, 0], ![0, 0, 0]] : StainMat) 1 0) := by
    simp
  have hsw : sdSwap ![![1/2, 0, 0], ![0, 0, 0]]
      = ![![1/2, 0, 0], ![0, 0, 0]] := by
    unfold sdSwap
    rw [if_neg hns]
  have hz1 : rowIsZero ((![![1/2, 0, 0], ![0, 0, 0]] : StainMat) 1) :=
    ⟨by simp, by simp, by simp⟩
  have hr0 : rowNormSq ((![![1/2, 0, 0], ![0, 0, 0]] : StainMat) 0)
      = 1/4 := by
    simp [rowNormSq]
    norm_num
  refine ⟨?_, ?_, ?_, by norm_num⟩
  · rw [hsw]
    intro h
    obtain ⟨h1, -, -⟩ := h
    simp at h1
  · unfold stain_dict_Vahadane
    rw [hsw, if_pos hz1]
    simp
  · rw [hsw, hr0,
      show ((1/4 : ℚ) : ℝ) = (1/2)^2 by norm_num,
      Real.sqrt_sq (by norm_num : (0:ℝ) ≤ 1/2)]
    simp

/-- **C8** (amended): `_stain_dict_Vahadane` normalizes rows only when
row 1 of the post-swap matrix is nonzero: in that case each row is divided
by its own Euclidean norm and each row of nonzero norm becomes a unit
vector; when row 1 *is* the zero vector, the entire matrix — including a
nonzero, un-normalized row 0 — is returned unchanged. -/
theorem c8_row_normalization (W : StainMat) :
    (rowIsZero (sdSwap W 1) →
      ∀ (i : Fin 2) (j : Fin 3),
        stain_dict_Vahadane W i j = ((sdSwap W i j : ℚ) : ℝ))
    ∧ (¬ rowIsZero (sdSwap W 1) →
      ∀ (i : Fin 2) (j : Fin 3),
        stain_dict_Vahadane W i j
          = ((sdSwap W i j : ℚ) : ℝ)
            / Real.sqrt ((rowNormSq (sdSwap W i) : ℚ) : ℝ))
    ∧ (¬ rowIsZero (sdSwap W 1) → ∀ i : Fin 2,
        rowNormSq (sdSwap W i) ≠ 0 →
        (stain_dict_Vahadane W i 0) ^ 2 + (stain_dict_Vahadane W i 1) ^ 2
          + (stain_dict_Vahadane W i 2) ^ 2 = 1) := by
  refine ⟨?_, ?_, ?_⟩
  · intro hz i j
    unfold stain_dict_Vahadane
    rw [if_pos hz]
  · intro hz i j
    unfold stain_dict_Vahadane
    rw [if_neg hz]
  · intro hz i hs
    have he : ∀ j : Fin 3, stain_dict_Vahadane W i j
        = ((sdSwap W i j : ℚ) : ℝ)
          / Real.sqrt ((rowNormSq (sdSwap W i) : ℚ) : ℝ) := by
      intro j
      unfold stain_dict_Vahadane
      rw [if_neg hz]
    have hq : (0:ℚ) ≤ rowNormSq (sdSwap W i) := by
      unfold rowNormSq
      positivity
    have hsnn : (0:ℝ) ≤ ((rowNormSq (sdSwap W i) : ℚ) : ℝ) := by
      exact_mod_cast hq
    have hcsq : (Real.sqrt ((rowNormSq (sdSwap W i) : ℚ) : ℝ))^2
        = ((rowNormSq (sdSwap W i) : ℚ) : ℝ) := Real.sq_sqrt hsnn
    rw [he 0, he 1, he 2, div_pow, div_pow, div_pow, hcsq,
      div_add_div_same, div_add_div_same]
    have hsum : ((sdSwap W i 0 : ℚ) : ℝ)^2 + ((sdSwap W i 1 : ℚ) : ℝ)^2
        + ((sdSwap W i 2 : ℚ) : ℝ)^2 = ((rowNormSq (sdSwap W i) : ℚ) : ℝ) := by
      unfold rowNormSq
      push_cast
      ring
    rw [hsum]
    exact div_self (by exact_mod_cast hs)

/-- **C8** (witness): the normalization theorem applied to a `trainDL`
output whose post-swap row 0 is `[3/5, 4/5, 0]` (unit norm) with
row 1 `[0, 0, 1]` nonzero: the returned row 0 is a unit vector. -/
theorem c8_row_normalization_witness :
    (stain_dict_Vahadane ![![0, 0, 1], ![3/5, 4/5, 0]] 0 0) ^ 2
      + (stain_dict_Vahadane ![![0, 0, 1], ![3/5, 4/5, 0]] 0 1) ^ 2
      + (stain_dict_Vahadane ![![0, 0, 1], ![3/5, 4/5, 0]] 0 2) ^ 2 = 1 := by
  have hsw : sdSwap ![![0, 0, 1], ![3/5, 4/5, 0]]
      = ![![3/5, 4/5, 0], ![0, 0, 1]] := by
    unfold sdSwap
    rw [if_pos (by simp)]
    simp
  apply (c8_row_normalization ![![0, 0, 1], ![3/5, 4/5, 0]]).2.2
  · rw [hsw]
    intro h
    obtain ⟨-, -, h3⟩ := h
    simp at h3
  · rw [hsw]
    simp [rowNormSq]
    norm_num

/-- **C9** (confirmed): `aggregate_to_slides` returns one row per distinct
slide-id (no duplicates, ids exactly those of the input), holding for each
slide-id the componentwise mean of the prediction vectors and the
componentwise mean of the label vectors of exactly the rows sharing that
slide-id; and `compute_roc_auc` is the abstract multi-class one-vs-rest
AUC-ROC scorer (`roc_auc_score(actual, pred, multi_class="ovr")`) applied
to these slide-level aggregates. -/
theorem c9_slide_aggregation (n : ℕ) (rows : List (String × Vec n × Vec n))
    (score : List (Vec n) → List (Vec n) → ℚ) (s : String) :
    (s ∈ (aggregate_to_slides rows).map (fun r => r.1)
      ↔ s ∈ rows.map (fun r => r.1))
    ∧ (s ∈ rows.map (fun r => r.1) →
        (s, vmean (predsOf s rows), vmean (actualsOf s rows))
          ∈ aggregate_to_slides rows)
    ∧ ((aggregate_to_slides rows).map (fun r => r.1)).Nodup
    ∧ compute_roc_auc score rows
        = score ((aggregate_to_slides rows).map (fun r => r.2.2))
            ((aggregate_to_slides rows).map (fun r => r.2.1)) := by
  have hkeys : (aggregate_to_slides rows).map (fun r => r.1)
      = slideKeys rows := by
    unfold aggregate_to_slides
    rw [List.map_map]
    exact List.map_id' _
  have hmem : ∀ t : String, t ∈ slideKeys rows ↔ t ∈ rows.map (fun r => r.1) := by
    intro t
    unfold slideKeys
    rw [(List.perm_insertionSort _ _).mem_iff, List.mem_dedup]
  refine ⟨?_, ?_, ?_, rfl⟩
  · rw [hkeys]
    exact hmem s
  · intro hs
    unfold aggregate_to_slides
    exact List.mem_map.mpr ⟨s, (hmem s).mpr hs, rfl⟩
  · rw [hkeys]
    unfold slideKeys
    exact ((List.perm_insertionSort _ _).nodup_iff).mpr (List.nodup_dedup _)

/-- **C9** (witness): the aggregation theorem applied to three concrete
tile rows over two slides: slide `"a"`'s aggregate row with its means is in
the output. -/
theorem c9_slide_aggregation_witness :
    (("a" : String),
      vmean (predsOf "a" [("b", (fun _ => 1), (fun _ => 0)),
        ("a", (fun _ => 2), (fun _ => 1)),
        ("b", (fun _ => 3), (fun _ => 0))]),
      vmean (actualsOf "a" [("b", (fun _ => 1), (fun _ => 0)),
        ("a", (fun _ => 2), (fun _ => 1)),
        ("b", (fun _ => 3), (fun _ => 0))]))
      ∈ aggregate_to_slides (n := 1) [("b", (fun _ => 1), (fun _ => 0)),
        ("a", (fun _ => 2), (fun _ => 1)),
        ("b", (fun _ => 3), (fun _ => 0))] := by
  apply (c9_slide_aggregation 1 _ (fun _ _ => 0) "a").2.1
  simp

/-- **C10** (confirmed): `imgOD = img` aliases the argument and
`imgOD[(img == 0)] = 1` writes through the alias, so after
`_stain_dict_Vahadane` returns, every zero entry of the caller's array has
been overwritten with 1 (all other entries unchanged, same length); an array
containing a zero is genuinely modified; and the identical overwrite of
`img2t` at line 128 of `_write_normalized_image` is then a no-op
(the effect is idempotent), so `img2t`'s zeros are gone before the
concentration fit. -/
theorem c10_stain_dict_mutates (img : List ℕ) :
    (stainDictArgAfter img).length = img.length
    ∧ (∀ (i : ℕ) (h1 : i < img.length)
        (h2 : i < (stainDictArgAfter img).length),
        img.get ⟨i, h1⟩ = 0 → (stainDictArgAfter img).get ⟨i, h2⟩ = 1)
    ∧ (∀ (i : ℕ) (h1 : i < img.length)
        (h2 : i < (stainDictArgAfter img).length),
        img.get ⟨i, h1⟩ ≠ 0 →
          (stainDictArgAfter img).get ⟨i, h2⟩ = img.get ⟨i, h1⟩)
    ∧ (0 ∈ img → stainDictArgAfter img ≠ img)
    ∧ stainDictArgAfter (stainDictArgAfter img) = stainDictArgAfter img := by
  refine ⟨by simp [stainDictArgAfter], ?_, ?_, stainDictArgAfter_ne, ?_⟩
  · intro i h1 h2 h0
    rw [List.get_eq_getElem] at h0 ⊢
    simp only [stainDictArgAfter, List.getElem_map]
    simp [h0]
  · intro i h1 h2 h0
    rw [List.get_eq_getElem] at h0 ⊢
    simp only [stainDictArgAfter, List.getElem_map]
    simp [h0]
  · simp only [stainDictArgAfter, List.map_map]
    congr 1
    funext x
    by_cases h : x = 0 <;> simp [h, Function.comp]

/-- **C10** (witness): the mutation theorem applied to the concrete array
`[0, 3, 0, 255]`: the zero at index 0 becomes 1, index 1 keeps its value,
and the array is changed. -/
theorem c10_stain_dict_mutates_witness :
    (stainDictArgAfter [0, 3, 0, 255]).get ⟨0, by decide⟩ = 1
    ∧ (stainDictArgAfter [0, 3, 0, 255]).get ⟨1, by decide⟩ = 3
    ∧ stainDictArgAfter [0, 3, 0, 255] ≠ [0, 3, 0, 255] := by
  refine ⟨(c10_stain_dict_mutates [0, 3, 0, 255]).2.1 0 (by decide) (by decide)
      (by decide), ?_, (c10_stain_dict_mutates [0, 3, 0, 255]).2.2.2.1 (by decide)⟩
  exact (c10_stain_dict_mutates [0, 3, 0, 255]).2.2.1 1 (by decide) (by decide)
    (by decide)

end SarcomaHistoFed
